import Mathlib

/-!
Verification of the availability resolution engine of `backend/availability.py`
(slot detection, busy-block normalization, conflict checking, timeframe
parsing).

Time model: the Python code works with timezone-aware `datetime` values that
all live in one configured timezone and are compared as instants.  We embed a
datetime as a `Nat`: the number of microseconds since an epoch taken to be a
Monday at 00:00 in that timezone (so `weekday = date % 7` matches Python's
`date.weekday()`, Monday = 0).  `datetime.combine(d, t, tz)` becomes
`d * usPerDay + t`, `timedelta` addition becomes `Nat` addition, `.date()`
becomes division by `usPerDay`, and the `minute`/`second`/`microsecond`
fields become the corresponding quotients/remainders.  A `time`-of-day value
(work_start, work_end, ...) is a `Nat` number of microseconds into the day.
Attaching the default timezone to a naive timestamp is the identity in this
single-zone model.  Daylight-saving discontinuities are outside the model.

ISO parsing: `_parse_busy_blocks` reads the `start`/`end` fields of a raw
record and drops the record when a field is missing (`KeyError`) or does not
parse (`ValueError`).  We embed a raw record as a `RawBlock` whose fields are
`Option Nat`: `none` stands for "missing or unparsable", `some t` for a field
that parses to the instant `t`.  `isoformat` is an injective encoding of an
instant, so output fields produced by `isoformat` are kept as the `Nat`
instant itself; the purely presentational strings produced by `strftime`
("%I:%M %p" clock strings, the display line) are modelled by executable
formatting functions below (the month/day-of-month part of the display line
is omitted because the epoch-day model carries no calendar month).
-/

namespace ExecAI

/-- Microseconds per minute. -/
def usPerMin : Nat := 60000000

/-- Microseconds per day. -/
def usPerDay : Nat := 1440 * usPerMin

/-- Module constant `SLOT_INCREMENT_MIN = 30` of `availability.py`. -/
def SLOT_INCREMENT_MIN : Nat := 30

/-- Module constant `MAX_SUGGESTIONS = 3` of `availability.py`. -/
def MAX_SUGGESTIONS : Nat := 3

/-- Default working hours 9:00 (`DEFAULT_WORK_START`), in microseconds of day. -/
def DEFAULT_WORK_START : Nat := 9 * 60 * usPerMin

/-- Default working hours 17:00 (`DEFAULT_WORK_END`), in microseconds of day. -/
def DEFAULT_WORK_END : Nat := 17 * 60 * usPerMin

/-- The slot increment as a timedelta in microseconds
(`increment = timedelta(minutes=SLOT_INCREMENT_MIN)`). -/
def incUs : Nat := SLOT_INCREMENT_MIN * usPerMin

/-- Python `dt.minute`: the minute-of-hour field of a datetime. -/
def minuteOf (dt : Nat) : Nat := dt / usPerMin % 60

/-- Python `dt.date()`, as a day number since the epoch Monday. -/
def dateOf (dt : Nat) : Nat := dt / usPerDay

/-- Python `d.weekday()`: 0 = Monday ... 6 = Sunday. -/
def weekdayOf (d : Nat) : Nat := d % 7

/-- Python `datetime.combine(d, t, tzinfo=tz)`. -/
def combine (d timeOfDay : Nat) : Nat := d * usPerDay + timeOfDay

/-- Embedding of `_round_up_to_increment(dt, increment_min)`:
`minute = dt.minute; remainder = minute % increment_min;` return `dt` when
`remainder == 0 and dt.second == 0 and dt.microsecond == 0` (the second and
microsecond fields are zero exactly when `dt % usPerMin = 0`), otherwise
return `dt.replace(second=0, microsecond=0)` (that is, `dt - dt % usPerMin`)
plus `(increment_min - remainder)` minutes. -/
def roundUpToIncrement (dt incrementMin : Nat) : Nat :=
  let minute := minuteOf dt
  let remainder := minute % incrementMin
  if remainder = 0 ∧ dt % usPerMin = 0 then dt
  else dt - dt % usPerMin + (incrementMin - remainder) * usPerMin

/-- Embedding of the inner `while slot_start + duration <= day_limit` loop of
`_generate_candidates`, which appends `(slot_start, slot_start + duration)`
and advances `slot_start` by the 30-minute increment.  The recursion is
driven by an explicit fuel argument so that the function is structurally
recursive and evaluates inside the kernel; `genDayLoop` below supplies fuel
that provably exceeds the number of iterations of the Python loop, and the
characterization lemma `mem_genDayLoopF` shows the result is independent of
the fuel once the fuel is sufficient. -/
def genDayLoopF : Nat → Nat → Nat → Nat → List (Nat × Nat)
  | 0, _, _, _ => []
  | fuel + 1, cursor, limit, dur =>
    if cursor + dur ≤ limit then
      (cursor, cursor + dur) :: genDayLoopF fuel (cursor + incUs) limit dur
    else []

/-- The inner while loop with sufficient fuel (`limit + 1` iterations always
suffice because each iteration advances the cursor by `incUs ≥ 1`). -/
def genDayLoop (cursor limit dur : Nat) : List (Nat × Nat) :=
  genDayLoopF (limit + 1) cursor limit dur

/-- One business day's block of `_generate_candidates`: working hours for the
day (`day_start`/`day_end`), clipping to the search bounds
(`slot_start = max(day_start, search_start)`,
`day_limit = min(day_end, search_end)`), rounding `slot_start` up to the next
increment boundary, then the emission loop. -/
def dayCandidates (searchStart searchEnd dur workStart workEnd currentDate : Nat) :
    List (Nat × Nat) :=
  let dayStart := combine currentDate workStart
  let dayEnd := combine currentDate workEnd
  let slotStart := max dayStart searchStart
  let dayLimit := min dayEnd searchEnd
  genDayLoop (roundUpToIncrement slotStart SLOT_INCREMENT_MIN) dayLimit dur

/-- Embedding of the `while current_date <= end_date` day loop of
`_generate_candidates`: weekend dates (`weekday() >= 5`) contribute no
candidates, other dates contribute `dayCandidates`.  The fuel is exactly the
number of iterations of the Python loop, `end_date + 1 - current_date`. -/
def genDaysF (searchStart searchEnd dur workStart workEnd : Nat) :
    Nat → Nat → List (Nat × Nat)
  | 0, _ => []
  | fuel + 1, currentDate =>
    (if 5 ≤ weekdayOf currentDate then []
     else dayCandidates searchStart searchEnd dur workStart workEnd currentDate)
      ++ genDaysF searchStart searchEnd dur workStart workEnd fuel (currentDate + 1)

/-- Embedding of `_generate_candidates(search_start, search_end, duration_min,
work_start, work_end, tz)`.  `duration = timedelta(minutes=duration_min)`;
the day loop runs from `search_start.date()` to `search_end.date()`
inclusive. -/
def generateCandidates (searchStart searchEnd durationMin workStart workEnd : Nat) :
    List (Nat × Nat) :=
  let dur := durationMin * usPerMin
  let startDate := dateOf searchStart
  let endDate := dateOf searchEnd
  genDaysF searchStart searchEnd dur workStart workEnd (endDate + 1 - startDate) startDate

/-- Embedding of `_overlaps_any(slot_start, slot_end, busy)`: true iff the
candidate overlaps some busy block under the half-open test
`slot_start < busy_end and slot_end > busy_start`. -/
def overlapsAny (slotStart slotEnd : Nat) (busy : List (Nat × Nat)) : Bool :=
  busy.any fun b => decide (slotStart < b.2) && decide (slotEnd > b.1)

/-- A raw busy-block record (one element of the `busy_blocks` argument).
`start?`/`stop?` model the `start`/`end` ISO date-time fields (`none` =
missing or unparsable, see the header comment), `title?` the optional
`title` field. -/
structure RawBlock where
  start? : Option Nat
  stop? : Option Nat
  title? : Option String
deriving DecidableEq

/-- The body of the `try` block of `_parse_busy_blocks` for one record: the
record survives exactly when both timestamp fields are present and parse. -/
def toInterval (b : RawBlock) : Option (Nat × Nat) :=
  match b.start?, b.stop? with
  | some s, some e => some (s, e)
  | _, _ => none

/-- The sort key of `parsed.sort(key=lambda x: x[0])`: compare intervals by
their start instant. -/
def byStart (p q : Nat × Nat) : Prop := p.1 ≤ q.1

instance : DecidableRel byStart := fun p q => inferInstanceAs (Decidable (p.1 ≤ q.1))

instance : IsTotal (Nat × Nat) byStart := ⟨fun p q => Nat.le_total p.1 q.1⟩

instance : IsTrans (Nat × Nat) byStart := ⟨fun _ _ _ => Nat.le_trans⟩

/-- Embedding of `_parse_busy_blocks(blocks, tz)`: keep the records whose
two timestamps parse, then sort ascending by start.  Python's `list.sort` is
a stable ascending sort; any stable sort computes the same list, and
`List.insertionSort byStart` is one (stability is proved below). -/
def parseBusyBlocks (blocks : List RawBlock) : List (Nat × Nat) :=
  List.insertionSort byStart (blocks.filterMap toInterval)

/-- Embedding of the filtering loop of `find_available_slots`: scan the
candidates in order, append each candidate that overlaps no busy block, and
break as soon as `len(available) >= max_results` (the break test runs after
every candidate, whether or not it was appended). -/
def selectLoop (busy : List (Nat × Nat)) (maxResults : Nat) :
    List (Nat × Nat) → List (Nat × Nat) → List (Nat × Nat)
  | acc, [] => acc
  | acc, c :: rest =>
    let acc' := if overlapsAny c.1 c.2 busy then acc else acc ++ [c]
    if maxResults ≤ acc'.length then acc'
    else selectLoop busy maxResults acc' rest

/-- Python `f"Option {chr(65 + i)}"`. -/
def optionLabel (i : Nat) : String := "Option " ++ (Char.ofNat (65 + i)).toString

/-- Two-digit zero padding, as in `strftime`'s `%I` and `%M`. -/
def pad2 (n : Nat) : String := if n < 10 then "0" ++ toString n else toString n

/-- Embedding of `strftime("%I:%M %p")`: a 12-hour wall-clock string. -/
def fmtClock (dt : Nat) : String :=
  let h := dt / usPerMin / 60 % 24
  let m := minuteOf dt
  let h12 := if h % 12 = 0 then 12 else h % 12
  pad2 h12 ++ ":" ++ pad2 m ++ (if h < 12 then " AM" else " PM")

/-- Abbreviated weekday name, as in `strftime`'s `%a`. -/
def weekdayAbbrev (w : Nat) : String :=
  ["Mon", "Tue", "Wed", "Thu", "Fri", "Sat", "Sun"].getD w ""

/-- Embedding of `_format_display(dt, tz)` (`strftime("%a %b %d, %I:%M %p %Z")`):
weekday abbreviation plus clock time.  The month/day-of-month and zone
abbreviation are omitted: the epoch-day model carries no calendar month, and
no claim concerns them. -/
def formatDisplay (dt : Nat) : String :=
  weekdayAbbrev (weekdayOf (dateOf dt)) ++ ", " ++ fmtClock dt

/-- One result record of `find_available_slots`.  `start`/`stop` keep the
instants whose `isoformat` strings the Python dict carries (`stop` models the
`"end"` key); `display` is the `_format_display` string. -/
structure SuggestedSlot where
  label : String
  start : Nat
  stop : Nat
  durationMin : Nat
  display : String
deriving DecidableEq

/-- Embedding of the result-formatting loop of `find_available_slots`
(`for i, (s, e) in enumerate(available)`), carrying the running index. -/
def formatResults (durationMin : Nat) : Nat → List (Nat × Nat) → List SuggestedSlot
  | _, [] => []
  | i, (s, e) :: rest =>
    { label := optionLabel i, start := s, stop := e, durationMin := durationMin,
      display := formatDisplay s } :: formatResults durationMin (i + 1) rest

/-- Embedding of `find_available_slots(busy_blocks, search_start, search_end,
duration_min, work_start, work_end, tz, max_results)`: parse the busy blocks,
generate candidates, filter with the capped loop, format the results. -/
def findAvailableSlots (busyBlocks : List RawBlock) (searchStart searchEnd : Nat)
    (durationMin workStart workEnd maxResults : Nat) : List SuggestedSlot :=
  let busy := parseBusyBlocks busyBlocks
  let candidates := generateCandidates searchStart searchEnd durationMin workStart workEnd
  let available := selectLoop busy maxResults [] candidates
  formatResults durationMin 0 available

/-- Embedding of Python `str.lower()`: lowercase every character (the
timeframe keywords are ASCII, where `Char.toLower` agrees with Python). -/
def pyLower (s : String) : String := ⟨s.data.map Char.toLower⟩

/-- Embedding of Python `str.strip()`: drop leading and trailing whitespace. -/
def pyStrip (s : String) : String :=
  ⟨((s.data.dropWhile Char.isWhitespace).reverse.dropWhile Char.isWhitespace).reverse⟩

/-- The `day_names` list of `timeframe_to_range`. -/
def dayNames : List String :=
  ["monday", "tuesday", "wednesday", "thursday", "friday", "saturday", "sunday"]

/-- Python `time(23, 59)` in microseconds of day. -/
def t2359 : Nat := (23 * 60 + 59) * usPerMin

/-- Embedding of `timeframe_to_range(timeframe, tz)`.  The Python function
anchors on `datetime.now(tz)`; the embedding takes that instant as the
explicit argument `now`.  `(timeframe or "").lower().strip()` becomes
`pyStrip (pyLower (timeframe.getD ""))`.  In the `"this week"` branch Python
clamps a negative `4 - weekday` to `0`, which truncated `Nat` subtraction
does directly; in the weekday-name branch `days_ahead` is signed, so it is
computed in `Int` exactly as in the source. -/
def timeframeToRange (timeframe : Option String) (now : Nat) : Nat × Nat :=
  let tf := pyStrip (pyLower (timeframe.getD ""))
  if tf = "today" then
    (now, combine (dateOf now) t2359)
  else if tf = "tomorrow" then
    let tmr := dateOf (now + usPerDay)
    (combine tmr 0, combine tmr t2359)
  else if tf = "this week" then
    let daysUntilFriday := 4 - weekdayOf (dateOf now)
    let friday := dateOf (now + daysUntilFriday * usPerDay)
    (now, combine friday t2359)
  else if tf = "next week" then
    let wd := weekdayOf (dateOf now)
    let daysUntilMonday := if wd = 0 then 7 else 7 - wd
    let monday := dateOf (now + daysUntilMonday * usPerDay)
    let friday := monday + 4
    (combine monday 0, combine friday t2359)
  else if tf ∈ dayNames then
    let targetWeekday := dayNames.indexOf tf
    let currentWeekday := weekdayOf (dateOf now)
    let daysAhead : Int := (targetWeekday : Int) - (currentWeekday : Int)
    let daysAhead' := if daysAhead ≤ 0 then daysAhead + 7 else daysAhead
    let targetDate := dateOf (now + daysAhead'.toNat * usPerDay)
    (combine targetDate 0, combine targetDate t2359)
  else
    (now, now + 5 * usPerDay)

/-- One conflict record of `check_conflicts`: the resolved title and the
`strftime("%I:%M %p")` strings of the busy interval (`stop` models the
`"end"` key). -/
structure ConflictRecord where
  title : String
  start : String
  stop : String
deriving DecidableEq

/-- Embedding of the inner `for block in busy_blocks ... else` search of
`check_conflicts`: scan the raw records for the first one whose `start`
field parses to `busy_start` (records whose `start` is missing or unparsable
are skipped by the `except ... continue`), and take its title with default
`"Busy"`; when no record matches, the `for`'s `else` branch yields `"Busy"`. -/
def findTitle (blocks : List RawBlock) (busyStart : Nat) : String :=
  match blocks with
  | [] => "Busy"
  | b :: rest =>
    match b.start? with
    | some bs => if bs = busyStart then b.title?.getD "Busy" else findTitle rest busyStart
    | none => findTitle rest busyStart

/-- Embedding of the outer loop of `check_conflicts` over the parsed busy
intervals: each interval overlapping the proposed event (half-open test
`event_start < busy_end and event_end > busy_start`) contributes exactly one
record, built inside the inner loop when a raw record with a matching start
is found and in the `for`-`else` branch otherwise: in both cases its title is
`findTitle` and its times are the formatted interval bounds. -/
def conflictsLoop (eventStart eventEnd : Nat) (blocks : List RawBlock) :
    List (Nat × Nat) → List ConflictRecord
  | [] => []
  | (bs, be) :: rest =>
    if eventStart < be ∧ eventEnd > bs then
      { title := findTitle blocks bs, start := fmtClock bs, stop := fmtClock be }
        :: conflictsLoop eventStart eventEnd blocks rest
    else conflictsLoop eventStart eventEnd blocks rest

/-- Embedding of `check_conflicts(event_start, event_end, busy_blocks, tz)`. -/
def checkConflicts (eventStart eventEnd : Nat) (busyBlocks : List RawBlock) :
    List ConflictRecord :=
  conflictsLoop eventStart eventEnd busyBlocks (parseBusyBlocks busyBlocks)

/-- Specification-side description of the title lookup, independent of the
loop embedding `findTitle`: the title of the first input record whose parsed
start equals the given instant, with `"Busy"` as the default. -/
def firstTitleFor (blocks : List RawBlock) (s : Nat) : String :=
  match blocks.find? (fun b => b.start? == some s) with
  | some b => b.title?.getD "Busy"
  | none => "Busy"

/-- Specification-side notion for the rounding claim: a datetime lies on an
increment boundary when its minute-of-hour is a multiple of the increment and
its second/sub-second component is zero. -/
def onIncrementBoundary (dt incrementMin : Nat) : Prop :=
  minuteOf dt % incrementMin = 0 ∧ dt % usPerMin = 0

instance (dt n : Nat) : Decidable (onIncrementBoundary dt n) :=
  inferInstanceAs (Decidable (_ ∧ _))

/-! ## Arithmetic facts about the time model and the rounding helper -/

theorem usPerMin_eq : usPerMin = 60000000 := rfl

theorem usPerDay_eq : usPerDay = 86400000000 := rfl

theorem incUs_eq : incUs = 1800000000 := rfl

/-- Rounding up never moves a datetime backwards. -/
theorem le_roundUpToIncrement (dt n : Nat) (hn : 0 < n) : dt ≤ roundUpToIncrement dt n := by
  unfold roundUpToIncrement
  simp only []
  split
  · exact Nat.le_refl dt
  · have h1 : dt % usPerMin < usPerMin := Nat.mod_lt dt (by rw [usPerMin_eq]; omega)
    have h2 : minuteOf dt % n < n := Nat.mod_lt _ hn
    have h3 : usPerMin ≤ (n - minuteOf dt % n) * usPerMin :=
      Nat.le_mul_of_pos_left usPerMin (by omega)
    omega

/-! ## The candidate generator's loops -/

/-- Every pair emitted by the inner loop starts at or after the cursor. -/
theorem cursor_le_of_mem_genDayLoopF (limit dur : Nat) :
    ∀ (fuel cursor : Nat) (p : Nat × Nat),
      p ∈ genDayLoopF fuel cursor limit dur → cursor ≤ p.1 := by
  intro fuel
  induction fuel with
  | zero => intro cursor p hp; simp [genDayLoopF] at hp
  | succ fuel ih =>
    intro cursor p hp
    simp only [genDayLoopF] at hp
    by_cases hg : cursor + dur ≤ limit
    · rw [if_pos hg] at hp
      rcases List.mem_cons.mp hp with heq | hmem
      · subst heq; exact Nat.le_refl _
      · have h1 := ih _ _ hmem
        have h2 : incUs = 1800000000 := incUs_eq
        omega
    · rw [if_neg hg] at hp; simp at hp

/-- Characterization of the inner loop's output for any sufficient fuel: the
emitted slots are exactly the pairs `(s, s + dur)` with `s` an
increment-aligned position at or after the cursor and `s + dur` within the
limit. -/
theorem mem_genDayLoopF (s e limit dur : Nat) :
    ∀ (fuel cursor : Nat), limit + 1 ≤ cursor + fuel * incUs →
      ((s, e) ∈ genDayLoopF fuel cursor limit dur ↔
        e = s + dur ∧ cursor ≤ s ∧ (s - cursor) % incUs = 0 ∧ s + dur ≤ limit) := by
  intro fuel
  induction fuel with
  | zero =>
    intro cursor hfuel
    simp only [genDayLoopF, List.not_mem_nil, false_iff]
    rintro ⟨he, h1, h2, h3⟩
    omega
  | succ fuel ih =>
    intro cursor hfuel
    have hstep : (fuel + 1) * incUs = fuel * incUs + incUs := by ring
    have hsuff : limit + 1 ≤ cursor + incUs + fuel * incUs := by rw [hstep] at hfuel; omega
    have hinc : incUs = 1800000000 := incUs_eq
    simp only [genDayLoopF]
    by_cases hg : cursor + dur ≤ limit
    · rw [if_pos hg]
      constructor
      · intro h
        rcases List.mem_cons.mp h with heq | hmem
        · rw [Prod.mk.injEq] at heq
          obtain ⟨hs, he⟩ := heq
          subst hs
          exact ⟨he, Nat.le_refl _, by simp, by omega⟩
        · obtain ⟨he, h1, h2, h3⟩ := (ih _ hsuff).mp hmem
          refine ⟨he, by omega, ?_, h3⟩
          rw [hinc] at h2 ⊢
          omega
      · rintro ⟨he, h1, h2, h3⟩
        by_cases hs : s = cursor
        · subst hs
          exact List.mem_cons.mpr (Or.inl (by rw [he]))
        · refine List.mem_cons.mpr (Or.inr ((ih _ hsuff).mpr ⟨he, ?_, ?_, h3⟩))
          · rw [hinc]; rw [hinc] at h2; omega
          · rw [hinc]; rw [hinc] at h2; omega
    · rw [if_neg hg]
      simp only [List.not_mem_nil, false_iff]
      rintro ⟨he, h1, h2, h3⟩
      omega

/-- The inner loop emits slots in strictly increasing start order. -/
theorem pairwise_genDayLoopF (limit dur : Nat) :
    ∀ (fuel cursor : Nat),
      (genDayLoopF fuel cursor limit dur).Pairwise (fun p q => p.1 < q.1) := by
  intro fuel
  induction fuel with
  | zero => intro cursor; simp [genDayLoopF]
  | succ fuel ih =>
    intro cursor
    simp only [genDayLoopF]
    split
    · refine List.Pairwise.cons ?_ (ih _)
      intro q hq
      have h1 := cursor_le_of_mem_genDayLoopF limit dur fuel (cursor + incUs) q hq
      have h2 : incUs = 1800000000 := incUs_eq
      simp only []
      omega
    · exact List.Pairwise.nil

/-- Characterization of one business day's emissions, phrased with the day's
clipped, rounded effective bounds. -/
theorem mem_dayCandidates (ss se dur ws we d s e : Nat) :
    (s, e) ∈ dayCandidates ss se dur ws we d ↔
      e = s + dur ∧
      roundUpToIncrement (max (combine d ws) ss) SLOT_INCREMENT_MIN ≤ s ∧
      (s - roundUpToIncrement (max (combine d ws) ss) SLOT_INCREMENT_MIN) % incUs = 0 ∧
      s + dur ≤ min (combine d we) se := by
  unfold dayCandidates genDayLoop
  simp only []
  apply mem_genDayLoopF
  have h1 : 1 ≤ incUs := by rw [incUs_eq]; omega
  have h2 : min (combine d we) se + 1 ≤ (min (combine d we) se + 1) * incUs := by
    calc min (combine d we) se + 1 = (min (combine d we) se + 1) * 1 := by ring
    _ ≤ (min (combine d we) se + 1) * incUs := Nat.mul_le_mul_left _ h1
  exact Nat.le_trans h2 (Nat.le_add_left _ _)

/-- Characterization of the day loop: a pair is emitted iff some non-weekend
day within the fuel window emits it. -/
theorem mem_genDaysF (ss se dur ws we : Nat) (p : Nat × Nat) :
    ∀ (fuel cd : Nat),
      p ∈ genDaysF ss se dur ws we fuel cd ↔
        ∃ d, cd ≤ d ∧ d < cd + fuel ∧ weekdayOf d < 5 ∧
          p ∈ dayCandidates ss se dur ws we d := by
  intro fuel
  induction fuel with
  | zero =>
    intro cd
    simp only [genDaysF, List.not_mem_nil, false_iff]
    rintro ⟨d, h1, h2, h3, h4⟩
    omega
  | succ fuel ih =>
    intro cd
    simp only [genDaysF, List.mem_append]
    constructor
    · rintro (h | h)
      · by_cases hw : 5 ≤ weekdayOf cd
        · rw [if_pos hw] at h; simp at h
        · rw [if_neg hw] at h
          exact ⟨cd, Nat.le_refl _, by omega, by omega, h⟩
      · obtain ⟨d, h1, h2, h3, h4⟩ := (ih _).mp h
        exact ⟨d, by omega, by omega, h3, h4⟩
    · rintro ⟨d, h1, h2, h3, h4⟩
      by_cases hd : d = cd
      · subst hd
        exact Or.inl (by rw [if_neg (by omega)]; exact h4)
      · exact Or.inr ((ih _).mpr ⟨d, by omega, by omega, h3, h4⟩)

/-- Full characterization of `generateCandidates`: a pair is generated iff
some business day of the inclusive date range emits it. -/
theorem mem_generateCandidates (ss se durationMin ws we : Nat) (p : Nat × Nat) :
    p ∈ generateCandidates ss se durationMin ws we ↔
      ∃ d, dateOf ss ≤ d ∧ d ≤ dateOf se ∧ weekdayOf d < 5 ∧
        p ∈ dayCandidates ss se (durationMin * usPerMin) ws we d := by
  unfold generateCandidates
  simp only []
  rw [mem_genDaysF]
  constructor
  · rintro ⟨d, h1, h2, h3, h4⟩
    exact ⟨d, h1, by omega, h3, h4⟩
  · rintro ⟨d, h1, h2, h3, h4⟩
    exact ⟨d, h1, by omega, h3, h4⟩

/-! ## The capped selection loop and result formatting -/

/-- Anything the selection loop returns beyond its accumulator overlaps no
busy block. -/
theorem mem_selectLoop (busy : List (Nat × Nat)) (maxResults : Nat) :
    ∀ (cands acc : List (Nat × Nat)) (x : Nat × Nat),
      x ∈ selectLoop busy maxResults acc cands →
      x ∈ acc ∨ overlapsAny x.1 x.2 busy = false := by
  intro cands
  induction cands with
  | nil => intro acc x hx; exact Or.inl hx
  | cons c rest ih =>
    intro acc x hx
    simp only [selectLoop] at hx
    by_cases ho : overlapsAny c.1 c.2 busy
    · rw [if_pos ho] at hx
      split at hx
      · exact Or.inl hx
      · exact ih acc x hx
    · rw [if_neg ho] at hx
      have hfree : overlapsAny c.1 c.2 busy = false := by
        revert ho; cases overlapsAny c.1 c.2 busy <;> simp
      split at hx
      · rcases List.mem_append.mp hx with h | h
        · exact Or.inl h
        · rcases List.mem_singleton.mp h with rfl
          exact Or.inr hfree
      · rcases ih _ x hx with h | h
        · rcases List.mem_append.mp h with h1 | h1
          · exact Or.inl h1
          · rcases List.mem_singleton.mp h1 with rfl
            exact Or.inr hfree
        · exact Or.inr h

/-- As long as the accumulator is below the cap, the selection loop returns
the accumulator followed by the first `maxResults - acc.length` candidates
that overlap no busy block: the break-on-cap loop computes a take of a
filter. -/
theorem selectLoop_eq (busy : List (Nat × Nat)) (maxResults : Nat) :
    ∀ (cands acc : List (Nat × Nat)), acc.length < maxResults →
      selectLoop busy maxResults acc cands =
        acc ++ ((cands.filter fun c => !overlapsAny c.1 c.2 busy).take
          (maxResults - acc.length)) := by
  intro cands
  induction cands with
  | nil => intro acc h; simp [selectLoop]
  | cons c rest ih =>
    intro acc h
    simp only [selectLoop]
    by_cases ho : overlapsAny c.1 c.2 busy
    · rw [if_pos ho, if_neg (by omega), ih acc h]
      simp only [List.filter_cons, ho, Bool.not_true, Bool.false_eq_true, if_false]
    · rw [if_neg ho]
      have hfalse : overlapsAny c.1 c.2 busy = false := by
        revert ho; cases overlapsAny c.1 c.2 busy <;> simp
      have hlen : (acc ++ [c]).length = acc.length + 1 := by simp
      simp only [List.filter_cons, hfalse, Bool.not_false, if_true]
      by_cases hb : maxResults ≤ (acc ++ [c]).length
      · rw [if_pos hb]
        have h1 : maxResults - acc.length = 1 := by omega
        rw [h1]
        simp
      · rw [if_neg hb, ih _ (by omega)]
        have h1 : maxResults - acc.length = (maxResults - (acc ++ [c]).length) + 1 := by
          omega
        rw [h1, List.take_succ_cons, hlen, List.append_assoc, List.singleton_append]

/-- Every formatted result's interval comes from the underlying list. -/
theorem mem_formatResults (durationMin : Nat) :
    ∀ (l : List (Nat × Nat)) (i : Nat) (r : SuggestedSlot),
      r ∈ formatResults durationMin i l → ∃ p ∈ l, r.start = p.1 ∧ r.stop = p.2 := by
  intro l
  induction l with
  | nil => intro i r h; simp [formatResults] at h
  | cons p rest ih =>
    intro i r h
    obtain ⟨s, e⟩ := p
    simp only [formatResults] at h
    rcases List.mem_cons.mp h with heq | hmem
    · subst heq
      exact ⟨(s, e), List.mem_cons_self _ _, rfl, rfl⟩
    · obtain ⟨q, hq, h1, h2⟩ := ih _ _ hmem
      exact ⟨q, List.mem_cons_of_mem _ hq, h1, h2⟩

/-- The labels of the formatted results are `optionLabel` of the running
index, in order. -/
theorem map_label_formatResults (durationMin : Nat) :
    ∀ (l : List (Nat × Nat)) (i : Nat),
      (formatResults durationMin i l).map SuggestedSlot.label =
        (List.range l.length).map (fun j => optionLabel (i + j)) := by
  intro l
  induction l with
  | nil => intro i; simp [formatResults]
  | cons p rest ih =>
    intro i
    obtain ⟨s, e⟩ := p
    simp only [formatResults, List.map_cons, List.length_cons]
    rw [List.range_succ_eq_map]
    simp only [List.map_cons, List.map_map]
    refine congrArg₂ _ (by simp) ?_
    rw [ih (i + 1)]
    refine List.map_congr_left ?_
    intro j hj
    simp only [Function.comp_apply]
    refine congrArg _ (by omega)

/-- With a positive cap, `find_available_slots` formats the first
`maxResults` non-overlapping candidates. -/
theorem findAvailableSlots_eq (busyBlocks : List RawBlock)
    (searchStart searchEnd durationMin workStart workEnd maxResults : Nat)
    (h : 1 ≤ maxResults) :
    findAvailableSlots busyBlocks searchStart searchEnd durationMin workStart workEnd
        maxResults =
      formatResults durationMin 0
        (((generateCandidates searchStart searchEnd durationMin workStart workEnd).filter
          fun c => !overlapsAny c.1 c.2 (parseBusyBlocks busyBlocks)).take maxResults) := by
  unfold findAvailableSlots
  simp only []
  rw [selectLoop_eq _ _ _ [] (by simpa using h)]
  simp

/-! ## Stability and order of the normalizer's sort -/

/-- Filtering at one start instant commutes with `orderedInsert` by start:
an inserted element lands after every element with the same key, and
elements with other keys are invisible to the filter. -/
theorem filter_orderedInsert_byStart (k : Nat) :
    ∀ (b : Nat × Nat) (s : List (Nat × Nat)),
      (s.orderedInsert byStart b).filter (fun p => p.1 == k) =
        (if b.1 == k then [b] else []) ++ s.filter (fun p => p.1 == k) := by
  intro b s
  induction s with
  | nil =>
    by_cases hb : b.1 == k <;> simp [List.orderedInsert, List.filter_cons, hb]
  | cons c s' ih =>
    simp only [List.orderedInsert]
    by_cases hbc : byStart b c
    · rw [if_pos hbc]
      by_cases hb : b.1 == k <;> by_cases hc : c.1 == k <;>
        simp [List.filter_cons, hb, hc]
    · rw [if_neg hbc]
      by_cases hb : b.1 == k <;> by_cases hc : c.1 == k
      · exfalso
        apply hbc
        have hb' : b.1 = k := by simpa using hb
        have hc' : c.1 = k := by simpa using hc
        unfold byStart
        omega
      · simp [List.filter_cons, hb, hc, ih]
      · simp [List.filter_cons, hb, hc, ih]
      · simp [List.filter_cons, hb, hc, ih]

/-- Stability of the normalizer's sort: the subsequence of intervals with any
fixed start instant is unchanged by sorting. -/
theorem filter_insertionSort_byStart (k : Nat) :
    ∀ l : List (Nat × Nat),
      (l.insertionSort byStart).filter (fun p => p.1 == k) =
        l.filter (fun p => p.1 == k) := by
  intro l
  induction l with
  | nil => rfl
  | cons b l' ih =>
    simp only [List.insertionSort]
    rw [filter_orderedInsert_byStart k b _, ih, List.filter_cons]
    by_cases hb : b.1 == k <;> simp [hb]

/-- The normalizer's output is a permutation of the surviving records'
intervals (nothing is deduplicated, nothing valid is dropped). -/
theorem parseBusyBlocks_perm (blocks : List RawBlock) :
    (parseBusyBlocks blocks).Perm (blocks.filterMap toInterval) :=
  List.perm_insertionSort byStart (blocks.filterMap toInterval)

/-- The normalizer's output is sorted ascending by start instant. -/
theorem parseBusyBlocks_sorted (blocks : List RawBlock) :
    (parseBusyBlocks blocks).Pairwise byStart :=
  List.sorted_insertionSort byStart (blocks.filterMap toInterval)

/-! ## The conflict checker's loops -/

/-- The outer conflict loop is a filter-and-map over the parsed intervals:
one record per overlapping interval, in the list's order, each titled by the
inner title search. -/
theorem conflictsLoop_eq (eventStart eventEnd : Nat) (blocks : List RawBlock) :
    ∀ l : List (Nat × Nat),
      conflictsLoop eventStart eventEnd blocks l =
        (l.filter fun p => decide (eventStart < p.2 ∧ eventEnd > p.1)).map
          (fun p => { title := findTitle blocks p.1, start := fmtClock p.1,
                      stop := fmtClock p.2 }) := by
  intro l
  induction l with
  | nil => rfl
  | cons p rest ih =>
    obtain ⟨bs, be⟩ := p
    simp only [conflictsLoop, List.filter_cons]
    by_cases h : eventStart < be ∧ eventEnd > bs
    · rw [if_pos h, ih]
      simp [h]
    · rw [if_neg h, ih]
      simp [h]

/-- The inner title search returns the title of the first record whose
parsed start matches, with the `"Busy"` default. -/
theorem findTitle_eq (s : Nat) :
    ∀ blocks : List RawBlock, findTitle blocks s = firstTitleFor blocks s := by
  intro blocks
  induction blocks with
  | nil => rfl
  | cons b rest ih =>
    by_cases hm : (b.start? == some s) = true
    · have hb : b.start? = some s := by simpa using hm
      simp [findTitle, firstTitleFor, List.find?_cons, hb]
    · cases hb : b.start? with
      | none =>
        have h1 : ((none : Option Nat) == some s) = false := rfl
        simp only [findTitle, firstTitleFor, List.find?_cons, hb, h1]
        exact ih
      | some bs =>
        have hbs : bs ≠ s := by
          intro hcon
          exact hm (by simp [hb, hcon])
        have h1 : ((some bs : Option Nat) == some s) = false := by simp [hbs]
        simp only [findTitle, firstTitleFor, List.find?_cons, hb, h1, if_neg hbs]
        exact ih

/-- The inner title search skips any prefix of records none of whose starts
parse to the sought instant. -/
theorem findTitle_append_of_no_match (s : Nat) :
    ∀ (xs rest : List RawBlock), (∀ b ∈ xs, b.start? ≠ some s) →
      findTitle (xs ++ rest) s = findTitle rest s := by
  intro xs
  induction xs with
  | nil => intro rest h; rfl
  | cons b xs' ih =>
    intro rest h
    have hb := h b (List.mem_cons_self _ _)
    have htail : ∀ x ∈ xs', x.start? ≠ some s := fun x hx => h x (List.mem_cons_of_mem _ hx)
    cases hbs : b.start? with
    | none =>
      simp only [List.cons_append, findTitle, hbs]
      exact ih rest htail
    | some bs =>
      have hne : bs ≠ s := fun hcon => hb (by rw [hbs, hcon])
      simp only [List.cons_append, findTitle, hbs, if_neg hne]
      exact ih rest htail

/-! ## Arithmetic of the increment boundary (for the rounding claim) -/

/-- Decomposition of a datetime's remainder modulo a whole number of
minutes. -/
theorem mod_mul_usPerMin (dt n : Nat) (hn : 0 < n) :
    dt % (n * usPerMin) = (dt / usPerMin % n) * usPerMin + dt % usPerMin := by
  have hb : dt % usPerMin < usPerMin := Nat.mod_lt _ (by rw [usPerMin_eq]; omega)
  have hab : dt / usPerMin * usPerMin + dt % usPerMin = dt := by
    rw [Nat.mul_comm (dt / usPerMin) usPerMin]
    exact Nat.div_add_mod dt usPerMin
  have h1 : dt / usPerMin * usPerMin % (n * usPerMin) = dt / usPerMin % n * usPerMin :=
    Nat.mul_mod_mul_right usPerMin (dt / usPerMin) n
  have hr : dt / usPerMin % n < n := Nat.mod_lt _ hn
  have hlt : dt / usPerMin % n * usPerMin + dt % usPerMin < n * usPerMin := by
    have h2 : (dt / usPerMin % n + 1) * usPerMin ≤ n * usPerMin :=
      Nat.mul_le_mul_right usPerMin (by omega)
    rw [Nat.add_mul, Nat.one_mul] at h2
    omega
  calc dt % (n * usPerMin)
      = (dt / usPerMin * usPerMin + dt % usPerMin) % (n * usPerMin) := by rw [hab]
    _ = (dt / usPerMin * usPerMin % (n * usPerMin) + dt % usPerMin % (n * usPerMin)) %
          (n * usPerMin) := by rw [Nat.add_mod]
    _ = (dt / usPerMin % n * usPerMin + dt % usPerMin) % (n * usPerMin) := by
          rw [h1, Nat.mod_eq_of_lt (a := dt % usPerMin) (by
            have h3 : usPerMin ≤ n * usPerMin := Nat.le_mul_of_pos_left usPerMin hn
            omega)]
    _ = dt / usPerMin % n * usPerMin + dt % usPerMin := Nat.mod_eq_of_lt hlt

/-- When the increment divides 60, lying on an increment boundary is exactly
being a multiple of the increment in microseconds. -/
theorem onIncrementBoundary_iff (dt n : Nat) (hn : 0 < n) (h60 : n ∣ 60) :
    onIncrementBoundary dt n ↔ dt % (n * usPerMin) = 0 := by
  have hmm : dt / usPerMin % 60 % n = dt / usPerMin % n := Nat.mod_mod_of_dvd _ h60
  have hkey := mod_mul_usPerMin dt n hn
  unfold onIncrementBoundary minuteOf
  rw [hmm, hkey]
  have husp : usPerMin = 60000000 := usPerMin_eq
  constructor
  · rintro ⟨h1, h2⟩
    rw [h1, h2]
    simp
  · intro h
    rw [husp] at h ⊢
    omega

/-- Off a boundary, rounding up lands on the next multiple of the increment
in microseconds, when the increment divides 60. -/
theorem roundUpToIncrement_eq_next (dt n : Nat) (hn : 0 < n) (h60 : n ∣ 60)
    (h : ¬ onIncrementBoundary dt n) :
    roundUpToIncrement dt n = (dt / (n * usPerMin) + 1) * (n * usPerMin) := by
  have h'' : ¬(dt / usPerMin % 60 % n = 0 ∧ dt % usPerMin = 0) := h
  have hmm : dt / usPerMin % 60 % n = dt / usPerMin % n := Nat.mod_mod_of_dvd _ h60
  have hNpos : 0 < n * usPerMin := Nat.mul_pos hn (by rw [usPerMin_eq]; omega)
  unfold roundUpToIncrement minuteOf
  simp only []
  rw [if_neg h'', hmm]
  obtain ⟨a, b, hb, hab⟩ : ∃ a b, b < usPerMin ∧ dt = a * usPerMin + b :=
    ⟨dt / usPerMin, dt % usPerMin, Nat.mod_lt _ (by rw [usPerMin_eq]; omega), by
      rw [Nat.mul_comm (dt / usPerMin) usPerMin]
      exact (Nat.div_add_mod dt usPerMin).symm⟩
  subst hab
  obtain ⟨q, r, hrn, haqr⟩ : ∃ q r, r < n ∧ a = n * q + r :=
    ⟨a / n, a % n, Nat.mod_lt _ hn, (Nat.div_add_mod a n).symm⟩
  subst haqr
  have hdiv1 : ((n * q + r) * usPerMin + b) / usPerMin = n * q + r := by
    rw [usPerMin_eq] at hb ⊢
    omega
  have hmod1 : ((n * q + r) * usPerMin + b) % usPerMin = b := by
    rw [usPerMin_eq] at hb ⊢
    omega
  rw [hdiv1, hmod1]
  have hmodn : (n * q + r) % n = r := by
    rw [Nat.mul_add_mod]
    exact Nat.mod_eq_of_lt hrn
  rw [hmodn]
  have hrest : r * usPerMin + b < n * usPerMin := by
    have h2 : (r + 1) * usPerMin ≤ n * usPerMin := Nat.mul_le_mul_right usPerMin (by omega)
    rw [Nat.add_mul, Nat.one_mul] at h2
    omega
  have hdt2 : (n * q + r) * usPerMin + b = (r * usPerMin + b) + q * (n * usPerMin) := by ring
  have hdivN : ((n * q + r) * usPerMin + b) / (n * usPerMin) = q := by
    rw [hdt2, Nat.add_mul_div_right _ _ hNpos, Nat.div_eq_of_lt hrest, Nat.zero_add]
  rw [hdivN]
  have hcan : (n * q + r) * usPerMin + b - b = (n * q + r) * usPerMin := by omega
  rw [hcan]
  have hnr : r + (n - r) = n := by omega
  calc (n * q + r) * usPerMin + (n - r) * usPerMin
      = ((n * q + r) + (n - r)) * usPerMin := by ring
    _ = (n * q + n) * usPerMin := by rw [Nat.add_assoc, hnr]
    _ = (q + 1) * (n * usPerMin) := by ring

/-- On a boundary, rounding is the identity. -/
theorem roundUpToIncrement_of_boundary (dt n : Nat) (h : onIncrementBoundary dt n) :
    roundUpToIncrement dt n = dt := by
  have h' : minuteOf dt % n = 0 ∧ dt % usPerMin = 0 := h
  unfold roundUpToIncrement
  simp only []
  rw [if_pos h']

/-- The day loop emits candidates in chronological (nondecreasing start)
order whenever the work-end is a valid time of day. -/
theorem genDaysF_sorted (ss se dur ws we : Nat) (hwe : we < usPerDay) :
    ∀ (fuel cd : Nat), (genDaysF ss se dur ws we fuel cd).Pairwise byStart := by
  intro fuel
  induction fuel with
  | zero => intro cd; simp [genDaysF]
  | succ fuel ih =>
    intro cd
    simp only [genDaysF]
    rw [List.pairwise_append]
    refine ⟨?_, ih _, ?_⟩
    · split
      · exact List.Pairwise.nil
      · unfold dayCandidates genDayLoop
        simp only []
        exact (pairwise_genDayLoopF _ _ _ _).imp Nat.le_of_lt
    · intro a ha b hb
      have ha' : a ∈ dayCandidates ss se dur ws we cd := by
        by_cases hw : 5 ≤ weekdayOf cd
        · rw [if_pos hw] at ha; simp at ha
        · rwa [if_neg hw] at ha
      obtain ⟨a1, a2⟩ := a
      obtain ⟨b1, b2⟩ := b
      rw [mem_dayCandidates] at ha'
      obtain ⟨ha1, ha2, ha3, ha4⟩ := ha'
      rw [mem_genDaysF] at hb
      obtain ⟨d, hd1, hd2, hd3, hb4⟩ := hb
      rw [mem_dayCandidates] at hb4
      obtain ⟨hb1, hb2, hb3, hb5⟩ := hb4
      unfold byStart
      simp only []
      have hr := le_roundUpToIncrement (max (combine d ws) ss) SLOT_INCREMENT_MIN (by decide)
      have h5 : combine d ws ≤ max (combine d ws) ss := Nat.le_max_left _ _
      have h6 : min (combine cd we) se ≤ combine cd we := Nat.min_le_left _ _
      have hc1 : combine d ws = d * 86400000000 + ws := by unfold combine; rw [usPerDay_eq]
      have hc2 : combine cd we = cd * 86400000000 + we := by unfold combine; rw [usPerDay_eq]
      rw [usPerDay_eq] at hwe
      omega

/-- The generated candidate list is chronological whenever the work-end is a
valid time of day. -/
theorem generateCandidates_sorted (ss se durationMin ws we : Nat) (hwe : we < usPerDay) :
    (generateCandidates ss se durationMin ws we).Pairwise byStart := by
  unfold generateCandidates
  simp only []
  exact genDaysF_sorted ss se _ ws we hwe _ _

/-! ## Claim theorems -/

/-- C3: the candidate generator emits no candidate whose date falls on a
Saturday or Sunday (for any work-end that is a valid time of day), and for a
search window lying entirely on a Saturday, `find_available_slots` returns
the empty list regardless of the busy blocks. -/
theorem c3_weekend_exclusion (ss se durationMin ws we : Nat) :
    (we < usPerDay → ∀ s e, (s, e) ∈ generateCandidates ss se durationMin ws we →
      weekdayOf (dateOf s) < 5) ∧
    (dateOf ss = dateOf se → weekdayOf (dateOf ss) = 5 →
      ∀ (bb : List RawBlock) (maxR : Nat),
        findAvailableSlots bb ss se durationMin ws we maxR = []) := by
  constructor
  · intro hwe s e hmem
    rw [mem_generateCandidates] at hmem
    obtain ⟨d, h1, h2, h3, h4⟩ := hmem
    rw [mem_dayCandidates] at h4
    obtain ⟨he, hs1, hs2, hs3⟩ := h4
    have hr := le_roundUpToIncrement (max (combine d ws) ss) SLOT_INCREMENT_MIN (by decide)
    have h5 : combine d ws ≤ max (combine d ws) ss := Nat.le_max_left _ _
    have h6 : min (combine d we) se ≤ combine d we := Nat.min_le_left _ _
    have hc1 : combine d ws = d * 86400000000 + ws := by unfold combine; rw [usPerDay_eq]
    have hc2 : combine d we = d * 86400000000 + we := by unfold combine; rw [usPerDay_eq]
    rw [usPerDay_eq] at hwe
    have hdate : dateOf s = d := by
      unfold dateOf
      rw [usPerDay_eq]
      omega
    rw [hdate]
    exact h3
  · intro hd hwd bb maxR
    have hcand : generateCandidates ss se durationMin ws we = [] := by
      rw [List.eq_nil_iff_forall_not_mem]
      intro p hp
      rw [mem_generateCandidates] at hp
      obtain ⟨d, h1, h2, h3, _⟩ := hp
      unfold weekdayOf at h3 hwd
      omega
    unfold findAvailableSlots
    simp only []
    rw [hcand]
    rfl

/-- C4 (amended: stated for increments dividing 60, which covers the
30-minute increment the engine uses): `_round_up_to_increment(dt, n)`
returns `dt` unchanged iff `dt`'s minute is a multiple of `n` and its
second/sub-second component is zero, and otherwise returns the smallest
datetime strictly after `dt` lying on such a boundary.  For increments not
dividing 60 the second part fails (see the counterexample). -/
theorem c4_round_up_correct (dt n : Nat) (hn : 0 < n) (h60 : n ∣ 60) :
    (roundUpToIncrement dt n = dt ↔ onIncrementBoundary dt n) ∧
    (¬ onIncrementBoundary dt n →
      dt < roundUpToIncrement dt n ∧
      onIncrementBoundary (roundUpToIncrement dt n) n ∧
      ∀ t, dt < t → onIncrementBoundary t n → roundUpToIncrement dt n ≤ t) := by
  have hNpos : 0 < n * usPerMin := Nat.mul_pos hn (by rw [usPerMin_eq]; omega)
  have hlt : ¬ onIncrementBoundary dt n → dt < roundUpToIncrement dt n := by
    intro h
    rw [roundUpToIncrement_eq_next dt n hn h60 h]
    have h1 := Nat.div_add_mod dt (n * usPerMin)
    have h2 := Nat.mod_lt dt hNpos
    rw [Nat.add_mul, Nat.one_mul]
    have h3 : dt / (n * usPerMin) * (n * usPerMin) = n * usPerMin * (dt / (n * usPerMin)) :=
      Nat.mul_comm _ _
    omega
  constructor
  · constructor
    · intro heq
      by_contra hnb
      have := hlt hnb
      omega
    · exact roundUpToIncrement_of_boundary dt n
  · intro hnb
    refine ⟨hlt hnb, ?_, ?_⟩
    · rw [roundUpToIncrement_eq_next dt n hn h60 hnb, onIncrementBoundary_iff _ n hn h60]
      exact Nat.mul_mod_left _ _
    · intro t hdt hbt
      rw [roundUpToIncrement_eq_next dt n hn h60 hnb]
      rw [onIncrementBoundary_iff t n hn h60] at hbt
      have h1 := Nat.div_add_mod t (n * usPerMin)
      have h2 := Nat.div_add_mod dt (n * usPerMin)
      have h3 := Nat.mod_lt dt hNpos
      by_cases hq : t / (n * usPerMin) ≤ dt / (n * usPerMin)
      · exfalso
        have h4 : n * usPerMin * (t / (n * usPerMin)) ≤ n * usPerMin * (dt / (n * usPerMin)) :=
          Nat.mul_le_mul_left _ hq
        omega
      · have h5 : dt / (n * usPerMin) + 1 ≤ t / (n * usPerMin) := by omega
        have h6 : (dt / (n * usPerMin) + 1) * (n * usPerMin) ≤
            t / (n * usPerMin) * (n * usPerMin) := Nat.mul_le_mul_right _ h5
        have h7 : t / (n * usPerMin) * (n * usPerMin) = n * usPerMin * (t / (n * usPerMin)) :=
          Nat.mul_comm _ _
        omega

/-- C4 witness: at 09:07:00.000123 with the 30-minute increment the input is
off-boundary and rounding moves strictly forward. -/
theorem c4_witness :
    ¬ onIncrementBoundary (547 * usPerMin + 123) 30 ∧
    547 * usPerMin + 123 < roundUpToIncrement (547 * usPerMin + 123) 30 :=
  ⟨by decide,
    ((c4_round_up_correct (547 * usPerMin + 123) 30 (by decide) ⟨2, rfl⟩).2 (by decide)).1⟩

/-- C4 counterexample: for the (positive) increment 45, which does not
divide 60, the claim fails at 00:50:00: the code returns 01:30, which does
not even lie on a 45-minute boundary, while 01:00 is a boundary strictly
after the input and strictly before the returned value — so the returned
value is not the smallest boundary strictly after the input. -/
theorem c4_counterexample :
    roundUpToIncrement (50 * usPerMin) 45 = 90 * usPerMin ∧
    ¬ onIncrementBoundary (50 * usPerMin) 45 ∧
    ¬ onIncrementBoundary (roundUpToIncrement (50 * usPerMin) 45) 45 ∧
    onIncrementBoundary (60 * usPerMin) 45 ∧
    50 * usPerMin < 60 * usPerMin ∧
    60 * usPerMin < roundUpToIncrement (50 * usPerMin) 45 := by
  refine ⟨by decide, by decide, by decide, by decide, by decide, by decide⟩

/-- C5: for each business day of the range, the generator emits exactly the
slots `[s, s + duration]` whose start is an increment-aligned position at or
after the rounded effective start and whose end fits within the clipped
effective end — so no candidate's end exceeds the clipped end, the last
aligned start with `s + duration ≤ end` is included, and one increment later
is excluded; within a day, candidates are emitted in increasing start
order. -/
theorem c5_day_emission (ss se durationMin ws we : Nat) :
    (∀ s e, (s, e) ∈ generateCandidates ss se durationMin ws we ↔
      ∃ d, dateOf ss ≤ d ∧ d ≤ dateOf se ∧ weekdayOf d < 5 ∧
        e = s + durationMin * usPerMin ∧
        roundUpToIncrement (max (combine d ws) ss) SLOT_INCREMENT_MIN ≤ s ∧
        (s - roundUpToIncrement (max (combine d ws) ss) SLOT_INCREMENT_MIN) % incUs = 0 ∧
        s + durationMin * usPerMin ≤ min (combine d we) se) ∧
    (∀ d, (dayCandidates ss se (durationMin * usPerMin) ws we d).Pairwise
      (fun p q => p.1 < q.1)) := by
  constructor
  · intro s e
    rw [mem_generateCandidates]
    constructor
    · rintro ⟨d, h1, h2, h3, h4⟩
      rw [mem_dayCandidates] at h4
      exact ⟨d, h1, h2, h3, h4.1, h4.2.1, h4.2.2.1, h4.2.2.2⟩
    · rintro ⟨d, h1, h2, h3, h4, h5, h6, h7⟩
      exact ⟨d, h1, h2, h3, (mem_dayCandidates ss se _ ws we d s e).mpr ⟨h4, h5, h6, h7⟩⟩
  · intro d
    unfold dayCandidates genDayLoop
    simp only []
    exact pairwise_genDayLoopF _ _ _ _

/-- C8: on an inverted search window (`search_end < search_start`) the
engine deterministically returns the empty list, and likewise on inverted
working hours (`work_end ≤ work_start`, with a positive slot duration), for
every busy-block input. -/
theorem c8_invalid_window_empty (bb : List RawBlock)
    (ss se durationMin ws we maxR : Nat) :
    (se < ss → findAvailableSlots bb ss se durationMin ws we maxR = []) ∧
    (we ≤ ws → 0 < durationMin →
      findAvailableSlots bb ss se durationMin ws we maxR = []) := by
  constructor
  · intro hss
    have hcand : generateCandidates ss se durationMin ws we = [] := by
      rw [List.eq_nil_iff_forall_not_mem]
      intro p hp
      obtain ⟨s, e⟩ := p
      rw [mem_generateCandidates] at hp
      obtain ⟨d, h1, h2, h3, h4⟩ := hp
      rw [mem_dayCandidates] at h4
      obtain ⟨he, hs1, hs2, hs3⟩ := h4
      have hr := le_roundUpToIncrement (max (combine d ws) ss) SLOT_INCREMENT_MIN (by decide)
      have h5 : ss ≤ max (combine d ws) ss := Nat.le_max_right _ _
      have h6 : min (combine d we) se ≤ se := Nat.min_le_right _ _
      omega
    unfold findAvailableSlots
    simp only []
    rw [hcand]
    rfl
  · intro hwork hdur
    have hcand : generateCandidates ss se durationMin ws we = [] := by
      rw [List.eq_nil_iff_forall_not_mem]
      intro p hp
      obtain ⟨s, e⟩ := p
      rw [mem_generateCandidates] at hp
      obtain ⟨d, h1, h2, h3, h4⟩ := hp
      rw [mem_dayCandidates] at h4
      obtain ⟨he, hs1, hs2, hs3⟩ := h4
      have hr := le_roundUpToIncrement (max (combine d ws) ss) SLOT_INCREMENT_MIN (by decide)
      have h5 : combine d ws ≤ max (combine d ws) ss := Nat.le_max_left _ _
      have h6 : min (combine d we) se ≤ combine d we := Nat.min_le_left _ _
      have hc1 : combine d ws = d * 86400000000 + ws := by unfold combine; rw [usPerDay_eq]
      have hc2 : combine d we = d * 86400000000 + we := by unfold combine; rw [usPerDay_eq]
      have hdur' : 0 < durationMin * usPerMin := Nat.mul_pos hdur (by rw [usPerMin_eq]; omega)
      omega
    unfold findAvailableSlots
    simp only []
    rw [hcand]
    rfl

/-- C8 witness: concrete inverted windows produce empty results (a Monday
search window with end before start, and 10:00-to-9:00 working hours). -/
theorem c8_witness :
    findAvailableSlots [RawBlock.mk (some (600 * usPerMin)) (some (660 * usPerMin))
        (some "Sync")] (12 * 3600000000) (9 * 3600000000) 30
        DEFAULT_WORK_START DEFAULT_WORK_END 3 = [] ∧
    findAvailableSlots [] 0 usPerDay 30 (10 * 3600000000) (9 * 3600000000) 3 = [] :=
  ⟨(c8_invalid_window_empty _ _ _ _ _ _ _).1 (by decide),
    (c8_invalid_window_empty _ _ _ _ _ _ _).2 (by decide) (by decide)⟩

/-- C1: every suggested slot returned by `find_available_slots` has zero
overlap, under the half-open test, with every normalized busy interval of
the same call. -/
theorem c1_no_overlap (busyBlocks : List RawBlock)
    (ss se durationMin ws we maxR : Nat) (r : SuggestedSlot) (bs be : Nat)
    (hr : r ∈ findAvailableSlots busyBlocks ss se durationMin ws we maxR)
    (hb : (bs, be) ∈ parseBusyBlocks busyBlocks) :
    ¬(r.start < be ∧ bs < r.stop) := by
  unfold findAvailableSlots at hr
  simp only [] at hr
  obtain ⟨p, hp, h1, h2⟩ := mem_formatResults _ _ _ _ hr
  rcases mem_selectLoop _ _ _ _ _ hp with hacc | hfree
  · simp at hacc
  · rw [h1, h2]
    intro hcon
    unfold overlapsAny at hfree
    rw [List.any_eq_false] at hfree
    have h3 := hfree (bs, be) hb
    simp only [Bool.and_eq_true, decide_eq_true_eq, not_and] at h3
    exact absurd hcon.2 (by simpa using h3 hcon.1)

/-- C1 witness: with a 12:00-13:00 busy block, the first suggested slot
(9:00-9:30) does not overlap it. -/
theorem c1_witness :
    ¬((SuggestedSlot.mk "Option A" (540 * usPerMin) (570 * usPerMin) 30
        "Mon, 09:00 AM").start < 780 * usPerMin ∧
      720 * usPerMin <
        (SuggestedSlot.mk "Option A" (540 * usPerMin) (570 * usPerMin) 30
          "Mon, 09:00 AM").stop) :=
  c1_no_overlap
    [RawBlock.mk (some (720 * usPerMin)) (some (780 * usPerMin)) (some "Lunch")]
    0 usPerDay 30 DEFAULT_WORK_START DEFAULT_WORK_END 3 _ (720 * usPerMin)
    (780 * usPerMin) (by decide) (by decide)

/-- C2 (amended: for `max_results ≥ 1`; with `max_results ≤ 0` the loop
still examines the first candidate before testing the cap and can return one
slot, see the counterexample): the resolver returns exactly the first
`min(max_results, number of accepted candidates)` non-overlapping candidates
of the chronologically ordered candidate sequence, labeled
`"Option A", "Option B", ...` in acceptance order. -/
theorem c2_first_fit_cap (bb : List RawBlock) (ss se durationMin ws we maxR : Nat)
    (hmax : 1 ≤ maxR) :
    findAvailableSlots bb ss se durationMin ws we maxR =
      formatResults durationMin 0
        (((generateCandidates ss se durationMin ws we).filter
          fun c => !overlapsAny c.1 c.2 (parseBusyBlocks bb)).take maxR) ∧
    (findAvailableSlots bb ss se durationMin ws we maxR).map SuggestedSlot.label =
      (List.range (min maxR (((generateCandidates ss se durationMin ws we).filter
        fun c => !overlapsAny c.1 c.2 (parseBusyBlocks bb)).length))).map optionLabel ∧
    (we < usPerDay → (generateCandidates ss se durationMin ws we).Pairwise byStart) := by
  have heq := findAvailableSlots_eq bb ss se durationMin ws we maxR hmax
  refine ⟨heq, ?_, fun hwe => generateCandidates_sorted ss se durationMin ws we hwe⟩
  rw [heq, map_label_formatResults, List.length_take]
  simp

/-- C2 witness: a concrete call with the default cap of 3. -/
theorem c2_witness :
    findAvailableSlots [] 0 usPerDay 30 DEFAULT_WORK_START DEFAULT_WORK_END 3 =
      formatResults 30 0
        (((generateCandidates 0 usPerDay 30 DEFAULT_WORK_START DEFAULT_WORK_END).filter
          fun c => !overlapsAny c.1 c.2 (parseBusyBlocks [])).take 3) :=
  (c2_first_fit_cap [] 0 usPerDay 30 DEFAULT_WORK_START DEFAULT_WORK_END 3 (by decide)).1

/-- C2 counterexample: with `max_results = 0` and a free first candidate the
call returns one slot, so the cap is exceeded and the result is not the
first `min(max_results, accepted) = 0` candidates. -/
theorem c2_counterexample :
    (findAvailableSlots [] 0 usPerDay 30 DEFAULT_WORK_START DEFAULT_WORK_END 0).length
      = 1 := by
  decide

/-- C6: the normalizer keeps exactly the records whose two timestamps are
present and parse (a conjunct below: deleting an invalid record from
anywhere in the input leaves the output unchanged, so invalid records never
abort the rest, and the embedding is total, so nothing is raised), performs
no deduplication (the output is a permutation of the survivors), and returns
the survivors sorted ascending by start, stably: the subsequence at each
start instant keeps the input order. -/
theorem c6_normalizer (blocks : List RawBlock) :
    (parseBusyBlocks blocks).Perm (blocks.filterMap toInterval) ∧
    (parseBusyBlocks blocks).Pairwise byStart ∧
    (∀ k, (parseBusyBlocks blocks).filter (fun p => p.1 == k) =
      (blocks.filterMap toInterval).filter (fun p => p.1 == k)) ∧
    (∀ (xs ys : List RawBlock) (b : RawBlock), toInterval b = none →
      parseBusyBlocks (xs ++ b :: ys) = parseBusyBlocks (xs ++ ys)) := by
  refine ⟨parseBusyBlocks_perm blocks, parseBusyBlocks_sorted blocks,
    fun k => filter_insertionSort_byStart k _, ?_⟩
  intro xs ys b hbad
  unfold parseBusyBlocks
  rw [List.filterMap_append, List.filterMap_append, List.filterMap_cons_none hbad]

/-- C6 witness: a record missing its end timestamp is dropped without
disturbing the two well-formed records around it. -/
theorem c6_witness :
    parseBusyBlocks
        ([RawBlock.mk (some (600 * usPerMin)) (some (660 * usPerMin)) (some "Sync")] ++
          RawBlock.mk (some (900 * usPerMin)) none none ::
          [RawBlock.mk (some (540 * usPerMin)) (some (570 * usPerMin)) none]) =
      parseBusyBlocks
        ([RawBlock.mk (some (600 * usPerMin)) (some (660 * usPerMin)) (some "Sync")] ++
          [RawBlock.mk (some (540 * usPerMin)) (some (570 * usPerMin)) none]) :=
  (c6_normalizer []).2.2.2
    [RawBlock.mk (some (600 * usPerMin)) (some (660 * usPerMin)) (some "Sync")]
    [RawBlock.mk (some (540 * usPerMin)) (some (570 * usPerMin)) none]
    (RawBlock.mk (some (900 * usPerMin)) none none) rfl

/-- C7 (amended: each record carries the title of the first input record
whose parsed start equals the overlapping interval's start — which is the
originating record's title whenever parsed starts are distinct — and `"Busy"`
when that record has no title or no record matches; see the counterexample
for why "originating" fails verbatim): `check_conflicts` returns exactly one
record per normalized busy interval overlapping the proposed interval under
the half-open test, in ascending order of the busy intervals' starts. -/
theorem c7_conflict_records (eventStart eventEnd : Nat) (blocks : List RawBlock) :
    checkConflicts eventStart eventEnd blocks =
      ((parseBusyBlocks blocks).filter
        fun p => decide (eventStart < p.2 ∧ eventEnd > p.1)).map
        (fun p => { title := firstTitleFor blocks p.1, start := fmtClock p.1,
                    stop := fmtClock p.2 }) ∧
    ((parseBusyBlocks blocks).filter
      fun p => decide (eventStart < p.2 ∧ eventEnd > p.1)).Pairwise byStart := by
  constructor
  · unfold checkConflicts
    rw [conflictsLoop_eq]
    refine List.map_congr_left ?_
    intro p hp
    rw [findTitle_eq]
  · exact (parseBusyBlocks_sorted blocks).sublist (List.filter_sublist _)

/-- C7 counterexample: two busy blocks share the start 10:00 but have
different ends and titles; a 10:30-11:30 event overlaps only the second
block's interval (10:00-11:00, titled "Deep Work"), yet the emitted record
carries the first block's title "Standup" — not the originating block's
title. -/
theorem c7_counterexample :
    checkConflicts (630 * usPerMin) (690 * usPerMin)
        [RawBlock.mk (some (600 * usPerMin)) (some (605 * usPerMin)) (some "Standup"),
         RawBlock.mk (some (600 * usPerMin)) (some (660 * usPerMin)) (some "Deep Work")] =
      [ConflictRecord.mk "Standup" "10:00 AM" "11:00 AM"] ∧
    parseBusyBlocks
        [RawBlock.mk (some (600 * usPerMin)) (some (605 * usPerMin)) (some "Standup"),
         RawBlock.mk (some (600 * usPerMin)) (some (660 * usPerMin)) (some "Deep Work")] =
      [(600 * usPerMin, 605 * usPerMin), (600 * usPerMin, 660 * usPerMin)] ∧
    (630 * usPerMin < 660 * usPerMin ∧ 690 * usPerMin > 600 * usPerMin) ∧
    ¬(630 * usPerMin < 605 * usPerMin) ∧
    "Standup" ≠ "Deep Work" :=
  ⟨by decide, by decide, by decide, by decide, by decide⟩

/-- C9: any timeframe that, after lowercasing and stripping, is none of the
recognized keywords (including a missing timeframe and the empty string)
falls back to the window from the current instant to five days later. -/
theorem c9_default_fallback (timeframe : Option String) (now : Nat)
    (h : pyStrip (pyLower (timeframe.getD "")) ∉
      ("today" :: "tomorrow" :: "this week" :: "next week" :: dayNames)) :
    timeframeToRange timeframe now = (now, now + 5 * usPerDay) := by
  simp only [List.mem_cons, not_or] at h
  obtain ⟨h1, h2, h3, h4, h5⟩ := h
  unfold timeframeToRange
  simp only []
  rw [if_neg h1, if_neg h2, if_neg h3, if_neg h4, if_neg h5]

/-- C9 witness: an unrecognized phrase falls back to now + 5 days. -/
theorem c9_witness :
    timeframeToRange (some "  Sometime Soon ") 987654321 =
      (987654321, 987654321 + 5 * usPerDay) :=
  c9_default_fallback (some "  Sometime Soon ") 987654321 (by decide)

/-- C10 (implicit behavior, confirmed): in an arbitrary busy-block list
`xs ++ b1 :: ys` where `b1` is the first block whose parsed start equals `s`
(the blocks of `xs` may have any other starts, parsed or not, and `ys` is
arbitrary) and some later block `b2` shares that start with a different
title `t2`, the checker's records are the `findTitle`-titled images of the
overlapping intervals, the title used for any interval starting at `s` is
`b1`'s title `t1` — never `b2`'s — and the record emitted for `b2`'s own
interval, when it is the overlapping one, carries `t1`. -/
theorem c10_duplicate_start_title (eventStart eventEnd s : Nat) (t1 t2 : String)
    (xs ys : List RawBlock) (b1 b2 : RawBlock)
    (hxs : ∀ b ∈ xs, b.start? ≠ some s)
    (hb1s : b1.start? = some s) (hb1t : b1.title? = some t1)
    (hb2 : b2 ∈ ys) (hb2s : b2.start? = some s) (hb2t : b2.title? = some t2)
    (hne : t2 ≠ t1) :
    checkConflicts eventStart eventEnd (xs ++ b1 :: ys) =
      ((parseBusyBlocks (xs ++ b1 :: ys)).filter
        (fun q => decide (eventStart < q.2 ∧ eventEnd > q.1))).map
        (fun p => { title := findTitle (xs ++ b1 :: ys) p.1,
                    start := fmtClock p.1, stop := fmtClock p.2 }) ∧
    findTitle (xs ++ b1 :: ys) s = t1 ∧
    (b2.title? = some t2 ∧ t2 ≠ t1) ∧
    (∀ e2, b2.stop? = some e2 →
      (s, e2) ∈ parseBusyBlocks (xs ++ b1 :: ys) ∧
      (eventStart < e2 → eventEnd > s →
        ConflictRecord.mk t1 (fmtClock s) (fmtClock e2) ∈
          checkConflicts eventStart eventEnd (xs ++ b1 :: ys))) := by
  have hchar : checkConflicts eventStart eventEnd (xs ++ b1 :: ys) =
      ((parseBusyBlocks (xs ++ b1 :: ys)).filter
        (fun q => decide (eventStart < q.2 ∧ eventEnd > q.1))).map
        (fun p => { title := findTitle (xs ++ b1 :: ys) p.1,
                    start := fmtClock p.1, stop := fmtClock p.2 }) := by
    unfold checkConflicts
    rw [conflictsLoop_eq]
  have htitle : findTitle (xs ++ b1 :: ys) s = t1 := by
    rw [findTitle_append_of_no_match s xs (b1 :: ys) hxs]
    unfold findTitle
    rw [hb1s]
    simp [hb1t]
  refine ⟨hchar, htitle, ⟨hb2t, hne⟩, ?_⟩
  intro e2 hbe2
  have hmem : (s, e2) ∈ parseBusyBlocks (xs ++ b1 :: ys) := by
    refine (parseBusyBlocks_perm (xs ++ b1 :: ys)).mem_iff.mpr ?_
    refine List.mem_filterMap.mpr ⟨b2, ?_, ?_⟩
    · exact List.mem_append.mpr (Or.inr (List.mem_cons_of_mem _ hb2))
    · unfold toInterval
      rw [hb2s, hbe2]
  refine ⟨hmem, ?_⟩
  intro hov1 hov2
  rw [hchar]
  refine List.mem_map.mpr ⟨(s, e2), ?_, ?_⟩
  · rw [List.mem_filter]
    exact ⟨hmem, by simp only [decide_eq_true_eq]; exact ⟨hov1, hov2⟩⟩
  · simp only []
    rw [htitle]

/-- C10 witness: in a mixed-start input (a 9:00 standup before, a 12:00
lunch after), two blocks share the 10:00 start with titles "First" and
"Second"; for a 10:30-11:30 event only the "Second" block's interval
(10:00-11:00) overlaps, yet the record the checker emits for it carries
"First". -/
theorem c10_witness :
    ConflictRecord.mk "First" (fmtClock (600 * usPerMin)) (fmtClock (660 * usPerMin)) ∈
      checkConflicts (630 * usPerMin) (690 * usPerMin)
        [RawBlock.mk (some (540 * usPerMin)) (some (570 * usPerMin)) (some "Standup"),
         RawBlock.mk (some (600 * usPerMin)) (some (605 * usPerMin)) (some "First"),
         RawBlock.mk (some (600 * usPerMin)) (some (660 * usPerMin)) (some "Second"),
         RawBlock.mk (some (720 * usPerMin)) (some (780 * usPerMin)) (some "Lunch")] :=
  ((c10_duplicate_start_title (630 * usPerMin) (690 * usPerMin) (600 * usPerMin)
      "First" "Second"
      [RawBlock.mk (some (540 * usPerMin)) (some (570 * usPerMin)) (some "Standup")]
      [RawBlock.mk (some (600 * usPerMin)) (some (660 * usPerMin)) (some "Second"),
       RawBlock.mk (some (720 * usPerMin)) (some (780 * usPerMin)) (some "Lunch")]
      (RawBlock.mk (some (600 * usPerMin)) (some (605 * usPerMin)) (some "First"))
      (RawBlock.mk (some (600 * usPerMin)) (some (660 * usPerMin)) (some "Second"))
      (by decide) rfl rfl (by decide) rfl rfl (by decide)).2.2.2
    (660 * usPerMin) rfl).2 (by decide) (by decide)

end ExecAI
